import Mathlib

set_option linter.unusedSectionVars false

/-!
Shallow embedding of the `AsyncJobQueue` repository
(src/AsyncJobQueue/AsyncJobQueue.h and AsyncJobQueue.cpp).

The keyed `AsyncJobQueue<Key>` is modelled as a labelled transition system:
every critical section of the C++ code (all shared state is guarded by the
single `mutex_for_condition_variable`) becomes one atomic step, and the
unlocked job execution becomes its own step, so arbitrary interleavings of
caller threads and worker threads are captured.  `std::map<Key, std::size_t>`
is modelled as an association list, `std::size_t` as `Nat` (counts in any
reachable execution stay far below 2^64, so wrap-around is not modelled).
Ghost fields (`subLog`, `popLog`, `startLog`, `evLog`, `nextId`) record the
submission order, the dequeue order, the execution-begin order and the
observable effects of jobs; they change nothing about the modelled code.

The `NoKey` partial specialization (AsyncJobQueue.cpp) is modelled separately
at the end, since it has a different worker loop and a different `Join`.
-/

namespace AsyncJobQueueModel

universe u v

/-! ### `std::map<Key, std::size_t>` as an association list -/

/-- Model of `std::map<Key, std::size_t>`: an association list.  Lookup
takes the first matching entry; all operations below keep keys unique. -/
def KMap (Key : Type u) : Type u := List (Key × Nat)

variable {Key : Type u} {V : Type v}

/-- Lookup (`map.find` / `map.at`). -/
def mlookup [DecidableEq Key] : KMap Key → Key → Option Nat
  | [], _ => none
  | (k, v) :: m, k2 => if k2 = k then some v else mlookup m k2

/-- Read in the style of `map[key]` with default 0 (what `operator[]` value-initializes). -/
def mget [DecidableEq Key] (m : KMap Key) (k : Key) : Nat :=
  (mlookup m k).getD 0

/-- Model of `map.contains(key)`. -/
def mcontains [DecidableEq Key] (m : KMap Key) (k : Key) : Bool :=
  (mlookup m k).isSome

/-- Model of `map.erase(key)`. -/
def merase [DecidableEq Key] (m : KMap Key) (k : Key) : KMap Key :=
  m.filter (fun e => !(decide (e.1 = k)))

/-- Store `v` under `k` (insert-or-assign). -/
def minsert [DecidableEq Key] (m : KMap Key) (k : Key) (v : Nat) : KMap Key :=
  (k, v) :: merase m k

/-- Model of `++map[key]`: value-initializes to 0 when absent, then increments. -/
def mincr [DecidableEq Key] (m : KMap Key) (k : Key) : KMap Key :=
  minsert m k (mget m k + 1)

/-- Model of `map.empty()`. -/
def mempty (m : KMap Key) : Bool :=
  m.isEmpty

theorem mlookup_merase [DecidableEq Key] (m : KMap Key) (k k2 : Key) :
    mlookup (merase m k) k2 = if k2 = k then none else mlookup m k2 := by
  induction m with
  | nil => simp [merase, mlookup]
  | cons e m ih =>
    obtain ⟨a, v⟩ := e
    by_cases hak : a = k
    · subst hak
      by_cases h2 : k2 = a <;>
        simp [merase, mlookup, List.filter, h2, ih, merase] at * <;> simp [h2, ih]
    · by_cases h2 : k2 = a
      · subst h2
        simp [merase, List.filter, hak, mlookup, if_neg hak]
      · simp only [merase, List.filter] at ih ⊢
        simp [hak, mlookup, h2, ih]

theorem mlookup_minsert [DecidableEq Key] (m : KMap Key) (k k2 : Key) (v : Nat) :
    mlookup (minsert m k v) k2 = if k2 = k then some v else mlookup m k2 := by
  by_cases h : k2 = k <;> simp [minsert, mlookup, h, mlookup_merase]

theorem mlookup_mincr [DecidableEq Key] (m : KMap Key) (k k2 : Key) :
    mlookup (mincr m k) k2 = if k2 = k then some (mget m k + 1) else mlookup m k2 := by
  simp [mincr, mlookup_minsert]

theorem mlookup_eraseList [DecidableEq Key] (ks : List Key) (m : KMap Key) (k2 : Key) :
    mlookup (ks.foldl merase m) k2 = if k2 ∈ ks then none else mlookup m k2 := by
  induction ks generalizing m with
  | nil => simp
  | cons a ks ih =>
    by_cases h : k2 = a
    · subst h
      simp [List.foldl, ih, mlookup_merase]
    · simp [List.foldl, ih, mlookup_merase, h]

theorem mempty_iff_lookup [DecidableEq Key] (m : KMap Key) :
    mempty m = true ↔ ∀ k, mlookup m k = none := by
  cases m with
  | nil => simp [mempty, mlookup]
  | cons e m =>
    simp only [mempty, List.isEmpty_cons]
    constructor
    · intro h; exact absurd h (by simp)
    · intro h
      have := h e.1
      simp [mlookup] at this

/-! ### Jobs and their observable effects

A job is the deferred closure built by `Add` / `AddWithCallback`
(`std::async(std::launch::deferred, job, ...)`).  Caller-supplied callables
may return normally or throw; `Except Unit` models "throws an exception".
Executing a job (`job.get()`) yields the list of observable calls it makes,
or an error when the callable throws. -/

/-- Observable calls made while a job executes. -/
inductive Event (V : Type v) : Type v where
  /-- the void callable of `Add` / void-`AddWithCallback` returned -/
  | funcVoid : Event V
  /-- the non-void callable returned value `v` -/
  | funcRet (v : V) : Event V
  /-- the callback of the void branch of `AddWithCallback` was invoked -/
  | cbUnit : Event V
  /-- the callback was invoked with argument `v` -/
  | cbCall (v : V) : Event V

/-- The three job shapes the source constructs (header lines 43-87). -/
inductive JobKind (V : Type v) : Type v where
  /-- Job of `Add`: `std::invoke(func, args...)`, result type `void` -/
  | plain (f : Unit → Except Unit Unit) : JobKind V
  /-- Job of `AddWithCallback`, `void` branch: `invoke(func); invoke(callback)` -/
  | cbVoid (f : Unit → Except Unit Unit) : JobKind V
  /-- Job of `AddWithCallback`, non-void branch: `invoke(callback, invoke(func))` -/
  | cbVal (f : Unit → Except Unit V) : JobKind V

/-- Model of `job.get()`: run the deferred closure.  Returns the observable calls in
order, or `Except.error` when the callable throws (the stored exception is
rethrown out of `get()`). -/
def runJob : JobKind V → Except Unit (List (Event V))
  | .plain f =>
    match f () with
    | .ok _ => .ok [.funcVoid]
    | .error e => .error e
  | .cbVoid f =>
    match f () with
    | .ok _ => .ok [.funcVoid, .cbUnit]
    | .error e => .error e
  | .cbVal f =>
    match f () with
    | .ok v => .ok [.funcRet v, .cbCall v]
    | .error e => .error e

/-! ### Worker thread phases

One worker runs `JobDispatcherThread` (header lines 144-198).  The phases
mark the points where the worker holds no lock, i.e. where other threads can
interleave. -/

/-- Control point of one worker thread of `thread_pool`. -/
inductive Phase (Key : Type u) (V : Type v) : Type (max u v) where
  /-- about to run the `if (unique_lock lk; empty(job_list))` at the loop top -/
  | atTop : Phase Key V
  /-- parked inside `job_condition_variable.wait` -/
  | waiting : Phase Key V
  /-- popped `(key, job)` (ghost id `id`), lock released, `job.get()` not yet run -/
  | hasJob (k : Key) (j : JobKind V) (id : Nat) : Phase Key V
  /-- the call `job.get()` returned; about to re-lock and do the in-progress accounting -/
  | ranJob (k : Key) : Phase Key V
  /-- the loop `break` was taken: the thread returned -/
  | done : Phase Key V
  /-- the call `job.get()` rethrew out of `JobDispatcherThread` (→ `std::terminate`) -/
  | crashed : Phase Key V

/-- State of one `AsyncJobQueue<Key>` instance together with its workers and
ghost history fields. -/
structure QState (Key : Type u) (V : Type v) : Type (max u v) where
  /-- field `job_list`, with a ghost submission id on each entry -/
  jobList : List (Key × JobKind V × Nat)
  /-- field `pending_job_count_map` -/
  pending : KMap Key
  /-- field `in_progress_job_count_map` -/
  inProgress : KMap Key
  /-- every worker has `stop_requested` on its stop token (destructor ran `request_stop`) -/
  stop : Bool
  /-- the worker threads of `thread_pool` -/
  workers : List (Phase Key V)
  /-- set when an exception escaped a worker (`std::terminate`) -/
  terminated : Bool
  /-- ghost: next submission id -/
  nextId : Nat
  /-- ghost: ids in submission order -/
  subLog : List Nat
  /-- ghost: ids in dequeue (pop-front) order -/
  popLog : List Nat
  /-- ghost: ids in execution-begin order -/
  startLog : List Nat
  /-- ghost: observable calls of all executed jobs, in order -/
  evLog : List (Event V)

/-- Freshly constructed `AsyncJobQueue{n}`: `n` workers start at their loop
top, all containers empty.  The constructor performs no validation of `n`;
`init 0` is a legal state (`number_of_threads == 0`). -/
def init (Key : Type u) (V : Type v) (n : Nat) : QState Key V where
  jobList := []
  pending := []
  inProgress := []
  stop := false
  workers := List.replicate n .atTop
  terminated := false
  nextId := 0
  subLog := []
  popLog := []
  startLog := []
  evLog := []

/-! ### List indexing for the worker pool -/

/-- Read worker `w` of the pool. -/
def getW : List α → Nat → Option α
  | [], _ => none
  | a :: _, 0 => some a
  | _ :: l, n + 1 => getW l n

/-- Replace worker `w` of the pool. -/
def setW : List α → Nat → α → List α
  | [], _, _ => []
  | _ :: l, 0, b => b :: l
  | a :: l, n + 1, b => a :: setW l n b

theorem getW_setW_self (l : List α) (w : Nat) (b : α) (a : α)
    (h : getW l w = some a) : getW (setW l w b) w = some b := by
  induction l generalizing w with
  | nil => simp [getW] at h
  | cons x l ih =>
    cases w with
    | zero => simp [getW, setW]
    | succ n => simpa [getW, setW] using ih n (by simpa [getW] using h)

theorem getW_setW_ne (l : List α) (w w2 : Nat) (b : α) (hne : w2 ≠ w) :
    getW (setW l w b) w2 = getW l w2 := by
  induction l generalizing w w2 with
  | nil => simp [setW]
  | cons x l ih =>
    cases w with
    | zero =>
      cases w2 with
      | zero => exact absurd rfl hne
      | succ m => simp [getW, setW]
    | succ n =>
      cases w2 with
      | zero => simp [getW, setW]
      | succ m => simpa [getW, setW] using ih n m (fun h => hne (by simp [h]))

theorem setW_countP (l : List α) (w : Nat) (b : α) (f : α → Bool) (a : α)
    (h : getW l w = some a) :
    (setW l w b).countP f + (if f a then 1 else 0)
      = l.countP f + (if f b then 1 else 0) := by
  induction l generalizing w with
  | nil => simp [getW] at h
  | cons x l ih =>
    cases w with
    | zero =>
      simp only [getW] at h
      cases h
      simp only [setW, List.countP_cons]
      omega
    | succ n =>
      simp only [getW] at h
      have := ih n h
      simp only [setW, List.countP_cons]
      omega

/-! ### Public operations of `AsyncJobQueue<Key>` (header lines 41-135)

Each operation below is the body of one critical section of the source. -/

variable [DecidableEq Key]

/-- Common body of `Add` / `AddWithCallback`: `job_list.emplace_back(key, job)`
and `++pending_job_count_map[key]` (plus ghost bookkeeping). -/
def enqueue (s : QState Key V) (k : Key) (j : JobKind V) : QState Key V :=
  { s with
    jobList := s.jobList ++ [(k, j, s.nextId)]
    pending := mincr s.pending k
    subLog := s.subLog ++ [s.nextId]
    nextId := s.nextId + 1 }

/-- Model of `Add(key, func, args...)` (header lines 41-57): enqueue the deferred
void-returning job.  (`job_condition_variable.notify_one()` after the unlock
is modelled by the wake steps of the waiting workers below.) -/
def Add (s : QState Key V) (k : Key) (f : Unit → Except Unit Unit) : QState Key V :=
  enqueue s k (.plain f)

/-- Model of `AddWithCallback(key, callback, func, args...)`, `void`-returning branch
(header lines 62-72). -/
def AddWithCallbackUnit (s : QState Key V) (k : Key) (f : Unit → Except Unit Unit) :
    QState Key V :=
  enqueue s k (.cbVoid f)

/-- Model of `AddWithCallback(key, callback, func, args...)`, value-returning branch
(header lines 74-84): the job invokes the callback on the result of the callable. -/
def AddWithCallbackVal (s : QState Key V) (k : Key) (f : Unit → Except Unit V) :
    QState Key V :=
  enqueue s k (.cbVal f)

/-- Model of `Ready(ts...)` (header lines 108-114): `empty(job_list)` and the two fold
expressions `(!pending_job_count_map.contains(ts) && ...)` and
`(!in_progress_job_count_map.contains(ts) && ...)` over the given keys. -/
def Ready (s : QState Key V) (ks : List Key) : Bool :=
  s.jobList.isEmpty
    && ks.all (fun k => !mcontains s.pending k)
    && ks.all (fun k => !mcontains s.inProgress k)

/-- The predicate `Join()` with zero keys waits on (header lines 95-97):
`empty(job_list) && empty(pending_job_count_map) && empty(in_progress_job_count_map)`. -/
def joinPredAll (s : QState Key V) : Bool :=
  s.jobList.isEmpty && mempty s.pending && mempty s.inProgress

/-- Modelled from the spec (claim C1): "`Ready(keys...)`: returns true iff
... the Job Store is empty AND none of the given keys appear in either
accounting map.  Zero keys means fully quiescent (Job Store empty and both
maps empty)."  This definition follows the words of the spec, to be compared
with the `Ready` of the source. -/
def ReadySpec (s : QState Key V) (ks : List Key) : Bool :=
  if ks.isEmpty then
    s.jobList.isEmpty && mempty s.pending && mempty s.inProgress
  else
    s.jobList.isEmpty
      && ks.all (fun k => !mcontains s.pending k)
      && ks.all (fun k => !mcontains s.inProgress k)

/-- Model of `Cancel(ts...)` (header lines 116-135).  Zero keys: `job_list.clear()`
and `pending_job_count_map.clear()`.  Otherwise: `std::erase_if(job_list, ...)`
keeping entries whose key matches none of `ks`, and
`(pending_job_count_map.erase(ts), ...)`.  Neither branch touches
`in_progress_job_count_map`, and neither branch signals
`join_condition_variable`. -/
def Cancel (s : QState Key V) (ks : List Key) : QState Key V :=
  if ks.isEmpty then
    { s with jobList := [], pending := [] }
  else
    { s with
      jobList := s.jobList.filter (fun e => !(ks.any (fun k => decide (e.1 = k))))
      pending := ks.foldl merase s.pending }

/-! ### The transition system

Labels name the atomic steps: the caller-side operations (each one critical
section) and the worker-side steps of `JobDispatcherThread`
(header lines 144-198). -/

/-- One atomic step of the system. -/
inductive Label (Key : Type u) (V : Type v) : Type (max u v) where
  /-- a caller runs `Add(k, f)` -/
  | add (k : Key) (f : Unit → Except Unit Unit) : Label Key V
  /-- a caller runs the void branch of `AddWithCallback(k, cb, f)` -/
  | addCbU (k : Key) (f : Unit → Except Unit Unit) : Label Key V
  /-- a caller runs the value branch of `AddWithCallback(k, cb, f)` -/
  | addCbV (k : Key) (f : Unit → Except Unit V) : Label Key V
  /-- a caller runs `Cancel(ks...)` (empty `ks` = the zero-argument overload) -/
  | cancel (ks : List Key) : Label Key V
  /-- the destructor runs `request_stop` on every worker and `notify_all` -/
  | reqStop : Label Key V
  /-- worker `w` at the loop top finds `job_list` empty: it runs
  `join_condition_variable.notify_all()` and blocks in
  `job_condition_variable.wait` (header lines 146-151) -/
  | checkIdle (w : Nat) : Label Key V
  /-- the wait predicate of worker `w` sees a non-empty `job_list`: the wait
  returns, the `stop && empty` break test fails, the lock is released and the
  loop restarts (header lines 151-158) -/
  | wakeWork (w : Nat) : Label Key V
  /-- the wait of worker `w` returns with stop requested and `job_list` empty:
  the `break` is taken and the thread ends (header lines 153-156) -/
  | wakeExit (w : Nat) : Label Key V
  /-- worker `w` at the loop top finds `job_list` non-empty: it pops the
  front entry, decrements `pending_job_count_map[key]` (erasing at zero),
  increments `in_progress_job_count_map[key]` and unlocks
  (header lines 160-180) -/
  | pop (w : Nat) : Label Key V
  /-- worker `w` runs `job.get()` outside the lock (header line 182) -/
  | execute (w : Nat) : Label Key V
  /-- worker `w` re-locks, decrements `in_progress_job_count_map[key]`
  (erasing at zero) and, when the key left both maps, runs
  `join_condition_variable.notify_all()` (header lines 184-196) -/
  | finish (w : Nat) : Label Key V

/-- Caller-side labels (operations invoked by threads outside the pool). -/
def isApiLabel : Label Key V → Bool
  | .add _ _ => true
  | .addCbU _ _ => true
  | .addCbV _ _ => true
  | .cancel _ => true
  | .reqStop => true
  | _ => false

/-- The step function: `applyLabel s l = some s2` when `l` is enabled in `s`
with successor `s2`; `none` when `l` is not enabled.  Each case transcribes
one atomic section of the source. -/
def applyLabel (s : QState Key V) : Label Key V → Option (QState Key V)
  | .add k f => some (Add s k f)
  | .addCbU k f => some (AddWithCallbackUnit s k f)
  | .addCbV k f => some (AddWithCallbackVal s k f)
  | .cancel ks => some (Cancel s ks)
  | .reqStop => some { s with stop := true }
  | .checkIdle w =>
    match getW s.workers w with
    | some .atTop =>
      if s.jobList.isEmpty then
        some { s with workers := setW s.workers w .waiting }
      else none
    | _ => none
  | .wakeWork w =>
    match getW s.workers w with
    | some .waiting =>
      if s.jobList.isEmpty then none
      else some { s with workers := setW s.workers w .atTop }
    | _ => none
  | .wakeExit w =>
    match getW s.workers w with
    | some .waiting =>
      if s.stop && s.jobList.isEmpty then
        some { s with workers := setW s.workers w .done }
      else none
    | _ => none
  | .pop w =>
    match getW s.workers w with
    | some .atTop =>
      match s.jobList with
      | [] => none
      | (k, j, id) :: rest =>
        let c := mget s.pending k - 1
        some { s with
          jobList := rest
          pending := if c = 0 then merase s.pending k else minsert s.pending k c
          inProgress := mincr s.inProgress k
          popLog := s.popLog ++ [id]
          workers := setW s.workers w (.hasJob k j id) }
    | _ => none
  | .execute w =>
    match getW s.workers w with
    | some (.hasJob k j id) =>
      match runJob j with
      | .ok evs =>
        some { s with
          evLog := s.evLog ++ evs
          startLog := s.startLog ++ [id]
          workers := setW s.workers w (.ranJob k) }
      | .error _ =>
        -- the exception leaves `JobDispatcherThread`: `std::terminate`;
        -- the accounting after `job.get()` never runs
        some { s with workers := setW s.workers w .crashed, terminated := true }
    | _ => none
  | .finish w =>
    match getW s.workers w with
    | some (.ranJob k) =>
      let c := mget s.inProgress k - 1
      some { s with
        inProgress := if c = 0 then merase s.inProgress k else minsert s.inProgress k c
        workers := setW s.workers w .atTop }
    | _ => none

/-- Run a list of labels from `s`; `none` as soon as a label is not enabled. -/
def foldLabels (s : QState Key V) : List (Label Key V) → Option (QState Key V)
  | [] => some s
  | l :: ls =>
    match applyLabel s l with
    | some s2 => foldLabels s2 ls
    | none => none

/-- Does step `l` taken in state `s` run `join_condition_variable.notify_all()`?
Only two places in the source do: the idle branch of the worker loop
(header line 148) and the end-of-job accounting when the key left both maps
(header lines 190-194).  In particular `Cancel` never does. -/
def stepSignalsJoin (s : QState Key V) : Label Key V → Bool
  | .checkIdle w =>
    match getW s.workers w with
    | some .atTop => s.jobList.isEmpty
    | _ => false
  | .finish w =>
    match getW s.workers w with
    | some (.ranJob k) =>
      (mget s.inProgress k - 1 == 0) && !mcontains s.pending k
    | _ => false
  | _ => false

/-- Is any worker-side step enabled in `s`?  (Callers can always act; this
asks whether the pool itself can make progress, in particular whether any
future `join_condition_variable` signal can happen without a new caller
action or a spurious wakeup.) -/
def workerEnabled (s : QState Key V) (w : Nat) : Bool :=
  match getW s.workers w with
  | some .atTop => true
  | some .waiting => s.stop || !s.jobList.isEmpty
  | some (.hasJob _ _ _) => true
  | some (.ranJob _) => true
  | _ => false

/-- True when some worker of the pool has an enabled step. -/
def anyWorkerStep (s : QState Key V) : Bool :=
  (List.range s.workers.length).any (workerEnabled s)

/-! ### Ghost counts and generic reachability reasoning -/

/-- Number of entries of `job_list` carrying key `k` (the semantic pending
count of `k`). -/
def pcount (s : QState Key V) (k : Key) : Nat :=
  s.jobList.countP (fun e => decide (e.1 = k))

/-- Is this worker currently holding or executing a job of key `k`?  (From
pop until the end-of-job accounting, i.e. while `in_progress_job_count_map`
counts it.) -/
def runningOn (k : Key) : Phase Key V → Bool
  | .hasJob k2 _ _ => decide (k2 = k)
  | .ranJob k2 => decide (k2 = k)
  | _ => false

/-- Number of workers currently holding or executing a job of key `k`
(the semantic in-progress count of `k`). -/
def xcount (s : QState Key V) (k : Key) : Nat :=
  s.workers.countP (runningOn k)

/-- Ghost ids of the queued jobs, in queue order. -/
def jobIds (s : QState Key V) : List Nat :=
  s.jobList.map (fun e => e.2.2)

theorem foldLabels_inv (P : QState Key V → Prop)
    (hstep : ∀ s l s2, P s → applyLabel s l = some s2 → P s2) :
    ∀ tr (s s2 : QState Key V), P s → foldLabels s tr = some s2 → P s2 := by
  intro tr
  induction tr with
  | nil =>
    intro s s2 hP h
    simp [foldLabels] at h
    exact h ▸ hP
  | cons l ls ih =>
    intro s s2 hP h
    simp only [foldLabels] at h
    cases hl : applyLabel s l with
    | none => rw [hl] at h; exact absurd h (by simp)
    | some s1 =>
      rw [hl] at h
      exact ih s1 s2 (hstep s l s1 hP hl) h

theorem getW_none_of_ge (l : List α) (w : Nat) (h : l.length ≤ w) :
    getW l w = none := by
  induction l generalizing w with
  | nil => simp [getW]
  | cons a l ih =>
    cases w with
    | zero => simp at h
    | succ n => exact ih n (by simpa using h)

theorem workerEnabled_false_of_none (s : QState Key V)
    (h : anyWorkerStep s = false) (w : Nat) : workerEnabled s w = false := by
  by_cases hw : w < s.workers.length
  · simp only [anyWorkerStep, List.any_eq_false] at h
    exact Bool.eq_false_iff.mpr (h w (List.mem_range.mpr hw))
  · simp [workerEnabled, getW_none_of_ge s.workers w (by omega)]

/-- When no worker-side step is enabled, every non-caller label is disabled:
from such a state no `join_condition_variable.notify_all()` can ever happen
unless a caller acts again (or a spurious wakeup occurs, which the platform
never guarantees). -/
theorem applyLabel_none_of_no_worker (s : QState Key V)
    (h : anyWorkerStep s = false) (l : Label Key V) (hl : isApiLabel l = false) :
    applyLabel s l = none := by
  have hw := workerEnabled_false_of_none s h
  cases l with
  | add k f => simp [isApiLabel] at hl
  | addCbU k f => simp [isApiLabel] at hl
  | addCbV k f => simp [isApiLabel] at hl
  | cancel ks => simp [isApiLabel] at hl
  | reqStop => simp [isApiLabel] at hl
  | checkIdle w =>
    have := hw w
    cases hgw : getW s.workers w with
    | none => simp [applyLabel, hgw]
    | some p =>
      cases p <;> simp_all [applyLabel, workerEnabled, hgw]
  | wakeWork w =>
    have := hw w
    cases hgw : getW s.workers w with
    | none => simp [applyLabel, hgw]
    | some p =>
      cases p <;> simp_all [applyLabel, workerEnabled, hgw]
  | wakeExit w =>
    have := hw w
    cases hgw : getW s.workers w with
    | none => simp [applyLabel, hgw]
    | some p =>
      cases p <;> simp_all [applyLabel, workerEnabled, hgw]
  | pop w =>
    have := hw w
    cases hgw : getW s.workers w with
    | none => simp [applyLabel, hgw]
    | some p =>
      cases p <;> simp_all [applyLabel, workerEnabled, hgw]
  | execute w =>
    have := hw w
    cases hgw : getW s.workers w with
    | none => simp [applyLabel, hgw]
    | some p =>
      cases p <;> simp_all [applyLabel, workerEnabled, hgw]
  | finish w =>
    have := hw w
    cases hgw : getW s.workers w with
    | none => simp [applyLabel, hgw]
    | some p =>
      cases p <;> simp_all [applyLabel, workerEnabled, hgw]

/-! ### The sparse-map invariant

`GoodMaps` says each accounting map stores exactly the semantic count and
omits zero counts: `pending_job_count_map` holds `k ↦ (number of queued jobs
of key k)` when positive, `in_progress_job_count_map` holds
`k ↦ (number of workers running a job of key k)` when positive. -/

/-- The two accounting maps agree with the semantic counts, entries present
exactly for positive counts. -/
def GoodMaps (s : QState Key V) : Prop :=
  (∀ k, mlookup s.pending k = if pcount s k = 0 then none else some (pcount s k))
  ∧ (∀ k, mlookup s.inProgress k = if xcount s k = 0 then none else some (xcount s k))

theorem mget_eq_pcount (s : QState Key V) (hG : GoodMaps s) (k : Key) :
    mget s.pending k = pcount s k := by
  unfold mget
  rw [hG.1 k]
  split <;> simp_all

theorem mget_eq_xcount (s : QState Key V) (hG : GoodMaps s) (k : Key) :
    mget s.inProgress k = xcount s k := by
  unfold mget
  rw [hG.2 k]
  split <;> simp_all

theorem getW_countP_ge (l : List α) (w : Nat) (a : α) (f : α → Bool)
    (h : getW l w = some a) (hf : f a = true) : 1 ≤ l.countP f := by
  induction l generalizing w with
  | nil => simp [getW] at h
  | cons x l ih =>
    cases w with
    | zero =>
      simp only [getW] at h
      cases h
      simp [List.countP_cons, hf]
    | succ n =>
      have := ih n (by simpa [getW] using h)
      simp only [List.countP_cons]
      omega

theorem pcount_enqueue (s : QState Key V) (k0 : Key) (j : JobKind V) (k : Key) :
    pcount (enqueue s k0 j) k = pcount s k + (if k0 = k then 1 else 0) := by
  simp only [pcount, enqueue, List.countP_append, List.countP_cons, List.countP_nil]
  by_cases h : k0 = k <;> simp [h]

theorem countP_filter_out (l : List (Key × JobKind V × Nat)) (ks : List Key) (k : Key)
    (hk : k ∈ ks) :
    (l.filter (fun e => !(ks.any (fun k2 => decide (e.1 = k2))))).countP
      (fun e => decide (e.1 = k)) = 0 := by
  rw [List.countP_filter, List.countP_eq_zero]
  intro e he
  simp only [Bool.and_eq_true, decide_eq_true_eq, Bool.not_eq_true', List.any_eq_false,
    decide_eq_false_iff_not, not_and]
  intro h1 h2
  exact h2 k hk h1

theorem countP_filter_keep (l : List (Key × JobKind V × Nat)) (ks : List Key) (k : Key)
    (hk : k ∉ ks) :
    (l.filter (fun e => !(ks.any (fun k2 => decide (e.1 = k2))))).countP
      (fun e => decide (e.1 = k)) = l.countP (fun e => decide (e.1 = k)) := by
  rw [List.countP_filter]
  refine List.countP_congr ?_
  intro e he
  simp only [Bool.and_eq_true, decide_eq_true_eq, Bool.not_eq_true', List.any_eq_false,
    decide_eq_false_iff_not]
  constructor
  · intro hh
    exact hh.1
  · intro hh
    exact ⟨hh, fun k2 hk2 he2 => hk ((he2.symm.trans hh) ▸ hk2)⟩

theorem goodMaps_init (n : Nat) : GoodMaps (init Key V n) := by
  constructor <;> intro k <;>
    simp [init, mlookup, pcount, xcount, List.countP_eq_zero, runningOn, List.mem_replicate]

theorem goodMaps_enqueue (s : QState Key V) (hG : GoodMaps s) (k0 : Key) (j : JobKind V) :
    GoodMaps (enqueue s k0 j) := by
  constructor
  · intro k
    show mlookup (mincr s.pending k0) k = _
    rw [mlookup_mincr, pcount_enqueue, mget_eq_pcount s hG]
    by_cases h : k = k0
    · subst h
      simp
    · have h2 : ¬(k0 = k) := fun hh => h hh.symm
      simp only [if_neg h, if_neg h2, Nat.add_zero]
      exact hG.1 k
  · intro k
    show mlookup s.inProgress k = if xcount (enqueue s k0 j) k = 0 then _ else _
    have : xcount (enqueue s k0 j) k = xcount s k := rfl
    rw [this]
    exact hG.2 k

/-- The step relation preserves `GoodMaps`, as long as no worker has crashed
(a job whose callable throws kills the process via `std::terminate`, skipping
the accounting; `terminated` records that). -/
theorem goodMaps_step (s : QState Key V) (l : Label Key V) (s2 : QState Key V)
    (h : applyLabel s l = some s2) (hG : s.terminated = false → GoodMaps s)
    (ht2 : s2.terminated = false) : GoodMaps s2 := by
  cases l with
  | add k0 f =>
    simp only [applyLabel, Option.some.injEq] at h
    subst h
    exact goodMaps_enqueue s (hG ht2) k0 _
  | addCbU k0 f =>
    simp only [applyLabel, Option.some.injEq] at h
    subst h
    exact goodMaps_enqueue s (hG ht2) k0 _
  | addCbV k0 f =>
    simp only [applyLabel, Option.some.injEq] at h
    subst h
    exact goodMaps_enqueue s (hG ht2) k0 _
  | reqStop =>
    simp only [applyLabel, Option.some.injEq] at h
    subst h
    exact hG ht2
  | cancel ks =>
    simp only [applyLabel, Option.some.injEq] at h
    subst h
    have hts : s.terminated = false := by
      unfold Cancel at ht2
      split at ht2 <;> exact ht2
    have hGs := hG hts
    unfold Cancel
    split
    · refine ⟨fun k => ?_, fun k => hGs.2 k⟩
      simp [mlookup, pcount]
    · refine ⟨fun k => ?_, fun k => hGs.2 k⟩
      dsimp only [pcount]
      rw [mlookup_eraseList]
      by_cases hk : k ∈ ks
      · rw [if_pos hk, countP_filter_out s.jobList ks k hk]
        simp
      · rw [if_neg hk, countP_filter_keep s.jobList ks k hk]
        exact hGs.1 k
  | checkIdle w =>
    simp only [applyLabel] at h
    cases hgw : getW s.workers w with
    | none => rw [hgw] at h; exact absurd h (by simp)
    | some p =>
      rw [hgw] at h
      cases p with
      | atTop =>
        dsimp only at h
        split at h
        · rw [Option.some.injEq] at h
          subst h
          have hGs := hG ht2
          refine ⟨fun k => hGs.1 k, fun k => ?_⟩
          dsimp only [xcount]
          have hset := setW_countP s.workers w Phase.waiting (runningOn k) _ hgw
          have hx : (setW s.workers w Phase.waiting).countP (runningOn k)
              = s.workers.countP (runningOn k) := by
            simp only [runningOn] at hset
            omega
          rw [hx]
          exact hGs.2 k
        · exact absurd h (by simp)
      | waiting => exact absurd h (by simp)
      | hasJob k0 j id => exact absurd h (by simp)
      | ranJob k0 => exact absurd h (by simp)
      | done => exact absurd h (by simp)
      | crashed => exact absurd h (by simp)
  | wakeWork w =>
    simp only [applyLabel] at h
    cases hgw : getW s.workers w with
    | none => rw [hgw] at h; exact absurd h (by simp)
    | some p =>
      rw [hgw] at h
      cases p with
      | waiting =>
        dsimp only at h
        split at h
        · exact absurd h (by simp)
        · rw [Option.some.injEq] at h
          subst h
          have hGs := hG ht2
          refine ⟨fun k => hGs.1 k, fun k => ?_⟩
          dsimp only [xcount]
          have hset := setW_countP s.workers w Phase.atTop (runningOn k) _ hgw
          have hx : (setW s.workers w Phase.atTop).countP (runningOn k)
              = s.workers.countP (runningOn k) := by
            simp only [runningOn] at hset
            omega
          rw [hx]
          exact hGs.2 k
      | atTop => exact absurd h (by simp)
      | hasJob k0 j id => exact absurd h (by simp)
      | ranJob k0 => exact absurd h (by simp)
      | done => exact absurd h (by simp)
      | crashed => exact absurd h (by simp)
  | wakeExit w =>
    simp only [applyLabel] at h
    cases hgw : getW s.workers w with
    | none => rw [hgw] at h; exact absurd h (by simp)
    | some p =>
      rw [hgw] at h
      cases p with
      | waiting =>
        dsimp only at h
        split at h
        · rw [Option.some.injEq] at h
          subst h
          have hGs := hG ht2
          refine ⟨fun k => hGs.1 k, fun k => ?_⟩
          dsimp only [xcount]
          have hset := setW_countP s.workers w Phase.done (runningOn k) _ hgw
          have hx : (setW s.workers w Phase.done).countP (runningOn k)
              = s.workers.countP (runningOn k) := by
            simp only [runningOn] at hset
            omega
          rw [hx]
          exact hGs.2 k
        · exact absurd h (by simp)
      | atTop => exact absurd h (by simp)
      | hasJob k0 j id => exact absurd h (by simp)
      | ranJob k0 => exact absurd h (by simp)
      | done => exact absurd h (by simp)
      | crashed => exact absurd h (by simp)
  | pop w =>
    simp only [applyLabel] at h
    cases hgw : getW s.workers w with
    | none => rw [hgw] at h; exact absurd h (by simp)
    | some p =>
      rw [hgw] at h
      cases p with
      | atTop =>
        cases hjl : s.jobList with
        | nil => rw [hjl] at h; exact absurd h (by simp)
        | cons e rest =>
          obtain ⟨k0, j, id⟩ := e
          rw [hjl] at h
          dsimp only at h
          rw [Option.some.injEq] at h
          subst h
          have hGs := hG ht2
          have hpc : pcount s k0 = rest.countP (fun e => decide (e.1 = k0)) + 1 := by
            simp [pcount, hjl, List.countP_cons]
          refine ⟨fun k => ?_, fun k => ?_⟩
          · dsimp only [pcount]
            have hmg : mget s.pending k0 = pcount s k0 := mget_eq_pcount s hGs k0
            by_cases hk : k = k0
            · subst hk
              rw [hmg, hpc]
              simp only [Nat.add_sub_cancel]
              split
              · rw [mlookup_merase, if_pos rfl]
              · rw [mlookup_minsert, if_pos rfl]
            · have hk2 : ¬(k0 = k) := fun hh => hk hh.symm
              have hrest : rest.countP (fun e => decide (e.1 = k)) = pcount s k := by
                simp [pcount, hjl, List.countP_cons, hk2]
              rw [hrest]
              split
              · rw [mlookup_merase, if_neg hk]
                exact hGs.1 k
              · rw [mlookup_minsert, if_neg hk]
                exact hGs.1 k
          · dsimp only [xcount]
            rw [mlookup_mincr, mget_eq_xcount s hGs]
            have hset := setW_countP s.workers w (Phase.hasJob k0 j id) (runningOn k) _ hgw
            by_cases hk : k = k0
            · subst hk
              rw [if_pos rfl]
              have hx : (setW s.workers w (Phase.hasJob k j id)).countP (runningOn k)
                  = s.workers.countP (runningOn k) + 1 := by
                simp [runningOn] at hset
                omega
              rw [hx]
              simp [xcount]
            · have hk2 : ¬(k0 = k) := fun hh => hk hh.symm
              rw [if_neg hk]
              have hx : (setW s.workers w (Phase.hasJob k0 j id)).countP (runningOn k)
                  = s.workers.countP (runningOn k) := by
                simp [runningOn, hk2] at hset
                omega
              rw [hx]
              exact hGs.2 k
      | waiting => exact absurd h (by simp)
      | hasJob k0 j id => exact absurd h (by simp)
      | ranJob k0 => exact absurd h (by simp)
      | done => exact absurd h (by simp)
      | crashed => exact absurd h (by simp)
  | execute w =>
    simp only [applyLabel] at h
    cases hgw : getW s.workers w with
    | none => rw [hgw] at h; exact absurd h (by simp)
    | some p =>
      rw [hgw] at h
      cases p with
      | hasJob k0 j id =>
        dsimp only at h
        cases hrj : runJob j with
        | ok evs =>
          rw [hrj] at h
          dsimp only at h
          rw [Option.some.injEq] at h
          subst h
          have hGs := hG ht2
          refine ⟨fun k => hGs.1 k, fun k => ?_⟩
          dsimp only [xcount]
          have hset := setW_countP s.workers w (Phase.ranJob k0) (runningOn k) _ hgw
          have hx : (setW s.workers w (Phase.ranJob k0)).countP (runningOn k)
              = s.workers.countP (runningOn k) := by
            simp only [runningOn] at hset
            omega
          rw [hx]
          exact hGs.2 k
        | error e =>
          rw [hrj] at h
          dsimp only at h
          rw [Option.some.injEq] at h
          subst h
          simp at ht2
      | atTop => exact absurd h (by simp)
      | waiting => exact absurd h (by simp)
      | ranJob k0 => exact absurd h (by simp)
      | done => exact absurd h (by simp)
      | crashed => exact absurd h (by simp)
  | finish w =>
    simp only [applyLabel] at h
    cases hgw : getW s.workers w with
    | none => rw [hgw] at h; exact absurd h (by simp)
    | some p =>
      rw [hgw] at h
      cases p with
      | ranJob k0 =>
        dsimp only at h
        rw [Option.some.injEq] at h
        subst h
        have hGs := hG ht2
        have hx1 : 1 ≤ xcount s k0 :=
          getW_countP_ge s.workers w _ (runningOn k0) hgw (by simp [runningOn])
        have hmg : mget s.inProgress k0 = xcount s k0 := mget_eq_xcount s hGs k0
        refine ⟨fun k => hGs.1 k, fun k => ?_⟩
        dsimp only [xcount]
        have hset := setW_countP s.workers w Phase.atTop (runningOn k) _ hgw
        by_cases hk : k = k0
        · subst hk
          have hx : (setW s.workers w Phase.atTop).countP (runningOn k)
              = s.workers.countP (runningOn k) - 1 := by
            simp [runningOn] at hset
            omega
          rw [hx, hmg]
          unfold xcount at hx1
          split
          · rename_i hc
            rw [mlookup_merase, if_pos rfl]
            unfold xcount at hc
            rw [hc]
            simp
          · rename_i hc
            rw [mlookup_minsert, if_pos rfl]
            unfold xcount at hc
            rw [if_neg hc]
            exact rfl
        · have hk2 : ¬(k0 = k) := fun hh => hk hh.symm
          have hx : (setW s.workers w Phase.atTop).countP (runningOn k)
              = s.workers.countP (runningOn k) := by
            simp [runningOn, hk2] at hset
            omega
          rw [hx]
          split
          · rw [mlookup_merase, if_neg hk]
            exact hGs.2 k
          · rw [mlookup_minsert, if_neg hk]
            exact hGs.2 k
      | atTop => exact absurd h (by simp)
      | waiting => exact absurd h (by simp)
      | hasJob k2 j id => exact absurd h (by simp)
      | done => exact absurd h (by simp)
      | crashed => exact absurd h (by simp)

/-- Every reachable crash-free state satisfies `GoodMaps`. -/
theorem goodMaps_reachable (n : Nat) (tr : List (Label Key V)) (s : QState Key V)
    (h : foldLabels (init Key V n) tr = some s) (ht : s.terminated = false) :
    GoodMaps s := by
  have hinv := foldLabels_inv
    (fun st => st.terminated = false → GoodMaps st)
    (fun s1 l s2 hP hstep ht2 => goodMaps_step s1 l s2 hstep hP ht2)
    tr (init Key V n) s (fun _ => goodMaps_init n) h
  exact hinv ht

/-! ### Global FIFO of the shared `job_list`

`Add` appends at the tail (`emplace_back`), the worker takes the head
(`front`/`pop_front`), so in any execution without `Cancel` the dequeue
order is exactly the submission order. -/

/-- No label of the trace is a `Cancel` call. -/
def noCancel : List (Label Key V) → Bool :=
  fun tr => tr.all (fun l => match l with | .cancel _ => false | _ => true)

theorem foldLabels_inv_cond (P : QState Key V → Prop) (Q : Label Key V → Bool)
    (hstep : ∀ s l s2, Q l = true → P s → applyLabel s l = some s2 → P s2) :
    ∀ tr (s s2 : QState Key V), tr.all Q = true → P s → foldLabels s tr = some s2 → P s2 := by
  intro tr
  induction tr with
  | nil =>
    intro s s2 _ hP h
    simp only [foldLabels, Option.some.injEq] at h
    exact h ▸ hP
  | cons l ls ih =>
    intro s s2 hQ hP h
    simp only [List.all_cons, Bool.and_eq_true] at hQ
    simp only [foldLabels] at h
    cases hl : applyLabel s l with
    | none => rw [hl] at h; exact absurd h (by simp)
    | some s1 =>
      rw [hl] at h
      exact ih s1 s2 hQ.2 (hstep s l s1 hQ.1 hP hl) h

theorem fifo_step (s : QState Key V) (l : Label Key V) (s2 : QState Key V)
    (hq : (match l with | Label.cancel _ => false | _ => true) = true)
    (hP : s.popLog ++ jobIds s = s.subLog)
    (h : applyLabel s l = some s2) :
    s2.popLog ++ jobIds s2 = s2.subLog := by
  cases l with
  | add k0 f =>
    simp only [applyLabel, Option.some.injEq] at h
    subst h
    show s.popLog ++ jobIds (enqueue s k0 (.plain f)) = s.subLog ++ [s.nextId]
    have : jobIds (enqueue s k0 (.plain f)) = jobIds s ++ [s.nextId] := by
      simp [jobIds, enqueue]
    rw [this, ← List.append_assoc, hP]
  | addCbU k0 f =>
    simp only [applyLabel, Option.some.injEq] at h
    subst h
    show s.popLog ++ jobIds (enqueue s k0 (.cbVoid f)) = s.subLog ++ [s.nextId]
    have : jobIds (enqueue s k0 (.cbVoid f)) = jobIds s ++ [s.nextId] := by
      simp [jobIds, enqueue]
    rw [this, ← List.append_assoc, hP]
  | addCbV k0 f =>
    simp only [applyLabel, Option.some.injEq] at h
    subst h
    show s.popLog ++ jobIds (enqueue s k0 (.cbVal f)) = s.subLog ++ [s.nextId]
    have : jobIds (enqueue s k0 (.cbVal f)) = jobIds s ++ [s.nextId] := by
      simp [jobIds, enqueue]
    rw [this, ← List.append_assoc, hP]
  | cancel ks => exact absurd hq (by simp)
  | reqStop =>
    simp only [applyLabel, Option.some.injEq] at h
    subst h
    exact hP
  | checkIdle w =>
    simp only [applyLabel] at h
    cases hgw : getW s.workers w with
    | none => rw [hgw] at h; exact absurd h (by simp)
    | some p =>
      rw [hgw] at h
      cases p with
      | atTop =>
        dsimp only at h
        split at h
        · rw [Option.some.injEq] at h
          subst h
          exact hP
        · exact absurd h (by simp)
      | waiting => exact absurd h (by simp)
      | hasJob k0 j id => exact absurd h (by simp)
      | ranJob k0 => exact absurd h (by simp)
      | done => exact absurd h (by simp)
      | crashed => exact absurd h (by simp)
  | wakeWork w =>
    simp only [applyLabel] at h
    cases hgw : getW s.workers w with
    | none => rw [hgw] at h; exact absurd h (by simp)
    | some p =>
      rw [hgw] at h
      cases p with
      | waiting =>
        dsimp only at h
        split at h
        · exact absurd h (by simp)
        · rw [Option.some.injEq] at h
          subst h
          exact hP
      | atTop => exact absurd h (by simp)
      | hasJob k0 j id => exact absurd h (by simp)
      | ranJob k0 => exact absurd h (by simp)
      | done => exact absurd h (by simp)
      | crashed => exact absurd h (by simp)
  | wakeExit w =>
    simp only [applyLabel] at h
    cases hgw : getW s.workers w with
    | none => rw [hgw] at h; exact absurd h (by simp)
    | some p =>
      rw [hgw] at h
      cases p with
      | waiting =>
        dsimp only at h
        split at h
        · rw [Option.some.injEq] at h
          subst h
          exact hP
        · exact absurd h (by simp)
      | atTop => exact absurd h (by simp)
      | hasJob k0 j id => exact absurd h (by simp)
      | ranJob k0 => exact absurd h (by simp)
      | done => exact absurd h (by simp)
      | crashed => exact absurd h (by simp)
  | pop w =>
    simp only [applyLabel] at h
    cases hgw : getW s.workers w with
    | none => rw [hgw] at h; exact absurd h (by simp)
    | some p =>
      rw [hgw] at h
      cases p with
      | atTop =>
        cases hjl : s.jobList with
        | nil => rw [hjl] at h; exact absurd h (by simp)
        | cons e rest =>
          obtain ⟨k0, j, id⟩ := e
          rw [hjl] at h
          dsimp only at h
          rw [Option.some.injEq] at h
          subst h
          have hids : jobIds s = id :: rest.map (fun e => e.2.2) := by
            simp [jobIds, hjl]
          show (s.popLog ++ [id]) ++ rest.map (fun e => e.2.2) = s.subLog
          rw [List.append_assoc]
          rw [hids] at hP
          simpa using hP
      | waiting => exact absurd h (by simp)
      | hasJob k0 j id => exact absurd h (by simp)
      | ranJob k0 => exact absurd h (by simp)
      | done => exact absurd h (by simp)
      | crashed => exact absurd h (by simp)
  | execute w =>
    simp only [applyLabel] at h
    cases hgw : getW s.workers w with
    | none => rw [hgw] at h; exact absurd h (by simp)
    | some p =>
      cases p with
      | hasJob k0 j id =>
        rw [hgw] at h
        dsimp only at h
        cases hrj : runJob j with
        | ok evs =>
          rw [hrj] at h
          dsimp only at h
          rw [Option.some.injEq] at h
          subst h
          exact hP
        | error e =>
          rw [hrj] at h
          dsimp only at h
          rw [Option.some.injEq] at h
          subst h
          exact hP
      | atTop => rw [hgw] at h; exact absurd h (by simp)
      | waiting => rw [hgw] at h; exact absurd h (by simp)
      | ranJob k0 => rw [hgw] at h; exact absurd h (by simp)
      | done => rw [hgw] at h; exact absurd h (by simp)
      | crashed => rw [hgw] at h; exact absurd h (by simp)
  | finish w =>
    simp only [applyLabel] at h
    cases hgw : getW s.workers w with
    | none => rw [hgw] at h; exact absurd h (by simp)
    | some p =>
      rw [hgw] at h
      cases p with
      | ranJob k0 =>
        dsimp only at h
        rw [Option.some.injEq] at h
        subst h
        exact hP
      | atTop => exact absurd h (by simp)
      | waiting => exact absurd h (by simp)
      | hasJob k0 j id => exact absurd h (by simp)
      | done => exact absurd h (by simp)
      | crashed => exact absurd h (by simp)

/-- In any reachable state of a cancel-free execution, the dequeue log
followed by the still-queued ids is exactly the submission log; in
particular the dequeue order is an initial segment of the submission
order, globally across all keys. -/
theorem fifo_reachable (n : Nat) (tr : List (Label Key V)) (s : QState Key V)
    (h : foldLabels (init Key V n) tr = some s) (hnc : noCancel tr = true) :
    s.popLog ++ jobIds s = s.subLog := by
  have hnc2 : (tr.all fun l => match l with | Label.cancel _ => false | _ => true) = true := hnc
  exact foldLabels_inv_cond (fun st => st.popLog ++ jobIds st = st.subLog)
    (fun l => match l with | Label.cancel _ => false | _ => true)
    (fun s1 l s2 hq hP hstep => fifo_step s1 l s2 hq hP hstep)
    tr (init Key V n) s hnc2 (by simp [init, jobIds]) h

/-! ### The `NoKey` partial specialization (AsyncJobQueue.cpp)

A different implementation: a `std::queue<std::future<void>>`, no accounting
maps, and a `number_of_busy_threads` counter.  `Join` waits on
`number_of_busy_threads == 0` (AsyncJobQueue.cpp lines 22-29); the worker
loop (lines 40-74) decrements the counter before parking and increments it
after waking, and does no per-job accounting at all. -/

/-- Control point of one `NoKey` worker thread. -/
inductive NKPhase (V : Type v) : Type v where
  /-- about to test `empty(job_queue)` at the loop top -/
  | atTop : NKPhase V
  /-- parked in `job_condition_variable.wait` (counter already decremented) -/
  | waiting : NKPhase V
  /-- popped a job, lock released, `job.get()` not yet run -/
  | hasJob (j : JobKind V) (id : Nat) : NKPhase V
  /-- the `break` was taken -/
  | done : NKPhase V
  /-- the call `job.get()` rethrew out of the thread (→ `std::terminate`) -/
  | crashed : NKPhase V

/-- State of one `AsyncJobQueue<NoKey>` instance. -/
structure NKState (V : Type v) : Type v where
  /-- field `job_queue`, with ghost submission ids -/
  jobQueue : List (JobKind V × Nat)
  /-- field `number_of_busy_threads` -/
  busy : Nat
  /-- stop was requested on every worker -/
  stop : Bool
  /-- the worker threads -/
  workers : List (NKPhase V)
  /-- an exception escaped a worker -/
  terminated : Bool
  /-- ghost fields as in the keyed model -/
  nextId : Nat
  subLog : List Nat
  popLog : List Nat
  startLog : List Nat
  evLog : List (Event V)

/-- Freshly constructed `AsyncJobQueue<NoKey>{n}`: `number_of_busy_threads`
starts at `std::size(thread_pool) = n` (AsyncJobQueue.cpp lines 3-10). -/
def nkInit (V : Type v) (n : Nat) : NKState V where
  jobQueue := []
  busy := n
  stop := false
  workers := List.replicate n .atTop
  terminated := false
  nextId := 0
  subLog := []
  popLog := []
  startLog := []
  evLog := []

/-- The predicate `AsyncJobQueue<NoKey>::Join` waits on
(AsyncJobQueue.cpp line 28): `number_of_busy_threads == 0`. -/
def NKJoinPred (s : NKState V) : Bool :=
  s.busy == 0

/-- Model of `AsyncJobQueue<NoKey>::Cancel` (AsyncJobQueue.cpp lines 31-38): swap the
queue with an empty temporary. -/
def NKCancel (s : NKState V) : NKState V :=
  { s with jobQueue := [] }

/-- Model of the `push` of `Add` / `AddWithCallback` for the `NoKey` queue. -/
def nkEnqueue (s : NKState V) (j : JobKind V) : NKState V :=
  { s with
    jobQueue := s.jobQueue ++ [(j, s.nextId)]
    subLog := s.subLog ++ [s.nextId]
    nextId := s.nextId + 1 }

/-- Atomic steps of the `NoKey` system. -/
inductive NKLabel (V : Type v) : Type v where
  | add (f : Unit → Except Unit Unit) : NKLabel V
  | addCbU (f : Unit → Except Unit Unit) : NKLabel V
  | addCbV (f : Unit → Except Unit V) : NKLabel V
  | cancel : NKLabel V
  | reqStop : NKLabel V
  /-- worker `w` finds the queue empty: `--number_of_busy_threads`, a
  `join_condition_variable.notify_all()` when it reached 0, then park
  (AsyncJobQueue.cpp lines 44-54) -/
  | checkIdle (w : Nat) : NKLabel V
  /-- worker `w` wakes to a non-empty queue: `++number_of_busy_threads`,
  loop restarts (lines 54-62) -/
  | wakeWork (w : Nat) : NKLabel V
  /-- worker `w` wakes with stop requested and the queue empty: `break`
  (lines 56-59) -/
  | wakeExit (w : Nat) : NKLabel V
  /-- worker `w` pops the front job and unlocks (lines 63-69) -/
  | pop (w : Nat) : NKLabel V
  /-- worker `w` runs `job.get()` (line 71) -/
  | execute (w : Nat) : NKLabel V

/-- Step function of the `NoKey` system. -/
def nkApply (s : NKState V) : NKLabel V → Option (NKState V)
  | .add f => some (nkEnqueue s (.plain f))
  | .addCbU f => some (nkEnqueue s (.cbVoid f))
  | .addCbV f => some (nkEnqueue s (.cbVal f))
  | .cancel => some (NKCancel s)
  | .reqStop => some { s with stop := true }
  | .checkIdle w =>
    match getW s.workers w with
    | some .atTop =>
      if s.jobQueue.isEmpty then
        some { s with busy := s.busy - 1, workers := setW s.workers w .waiting }
      else none
    | _ => none
  | .wakeWork w =>
    match getW s.workers w with
    | some .waiting =>
      if s.jobQueue.isEmpty then none
      else some { s with busy := s.busy + 1, workers := setW s.workers w .atTop }
    | _ => none
  | .wakeExit w =>
    match getW s.workers w with
    | some .waiting =>
      if s.stop && s.jobQueue.isEmpty then
        some { s with workers := setW s.workers w .done }
      else none
    | _ => none
  | .pop w =>
    match getW s.workers w with
    | some .atTop =>
      match s.jobQueue with
      | [] => none
      | (j, id) :: rest =>
        some { s with
          jobQueue := rest
          popLog := s.popLog ++ [id]
          workers := setW s.workers w (.hasJob j id) }
    | _ => none
  | .execute w =>
    match getW s.workers w with
    | some (.hasJob j id) =>
      match runJob j with
      | .ok evs =>
        some { s with
          evLog := s.evLog ++ evs
          startLog := s.startLog ++ [id]
          workers := setW s.workers w .atTop }
      | .error _ =>
        some { s with workers := setW s.workers w .crashed, terminated := true }
    | _ => none

/-- Run a list of `NoKey` labels from `s`. -/
def nkFold (s : NKState V) : List (NKLabel V) → Option (NKState V)
  | [] => some s
  | l :: ls =>
    match nkApply s l with
    | some s2 => nkFold s2 ls
    | none => none

/-! ### Concrete executions used by the claims -/

/-- A callable that returns normally. -/
def okJob : Unit → Except Unit Unit := fun _ => Except.ok ()

/-- A callable that throws. -/
def badJob : Unit → Except Unit Unit := fun _ => Except.error ()

/-- One worker; submit a job of key 5; the worker pops it (and is now
executing it): the store and the pending map are empty, the in-progress map
is not. -/
def c1s : QState Nat Nat :=
  (foldLabels (init Nat Nat 1) [.add 5 okJob, .pop 0]).getD (init Nat Nat 1)

/-- One worker; a job of key 7 is queued, then the destructor requests
stop while the job is still queued and undispatched. -/
def c2mid : QState Nat Nat :=
  (foldLabels (init Nat Nat 1) [.add 7 okJob, .reqStop]).getD (init Nat Nat 1)

/-- Continuation of `c2mid`: the worker pops and executes the job that was
queued when stop was requested. -/
def c2fin : QState Nat Nat :=
  (foldLabels c2mid [.pop 0, .execute 0]).getD c2mid

/-- One worker parked (after notifying), then stop requested; the worker has
its wake-and-exit step enabled. -/
def c2wait : QState Nat Nat :=
  (foldLabels (init Nat Nat 1) [.checkIdle 0, .reqStop]).getD (init Nat Nat 1)

/-- Successor of `c2wait` by the exit step of the worker. -/
def c2waitDone : QState Nat Nat :=
  (applyLabel c2wait (.wakeExit 0)).getD c2wait

/-- A `NoKey` pool with one worker: the worker goes idle (busy count drops to
0), then a caller pushes one job.  The predicate of `Join` is already true. -/
def c3s : NKState Nat :=
  (nkFold (nkInit Nat 1) [.checkIdle 0, .add okJob]).getD (nkInit Nat 1)

/-- One worker parks; a job of key 5 is submitted.  A `Join(5)` caller
checking now finds `Ready(5)` false and blocks. -/
def c4block : QState Nat Nat :=
  (foldLabels (init Nat Nat 1) [.checkIdle 0, .add 5 okJob]).getD (init Nat Nat 1)

/-- Then `Cancel(5)` runs: the store empties, key 5 leaves the pending map. -/
def c4stuck : QState Nat Nat :=
  (applyLabel c4block (.cancel [5])).getD c4block

/-! ### The claims -/

/-- C1 (counterexample): the spec says `Ready()` with zero keys is full
quiescence (store empty AND both maps empty).  In the code the two fold
expressions over an empty pack are vacuously true, so `Ready()` ignores the
maps: in the reachable state `c1s` (one job of key 5 popped and executing),
`Ready()` returns true while the in-progress map is non-empty, and the
zero-key predicate of the spec is false. -/
theorem C1_ready_zero_keys_cex :
    foldLabels (init Nat Nat 1) [.add 5 okJob, .pop 0] = some c1s
    ∧ Ready c1s [] = true
    ∧ mempty c1s.inProgress = false
    ∧ ReadySpec c1s [] = false :=
  ⟨rfl, rfl, rfl, rfl⟩

theorem all_and_split (l : List α) (p q : α → Bool) :
    l.all (fun a => p a && q a) = (l.all p && l.all q) := by
  induction l with
  | nil => simp
  | cons a l ih =>
    simp only [List.all_cons, ih]
    cases p a <;> cases q a <;> simp

/-- C1 (amended): `Ready()` with zero keys returns true iff the job store is
empty — the accounting maps are not examined, because the variadic
conjunctions over zero keys are vacuously true.  With one or more keys,
`Ready(keys...)` returns true iff the store is empty and no given key is in
either accounting map, exactly as the spec says for the non-empty case. -/
theorem C1_ready_amended (s : QState Key V) (ks : List Key) (hne : ks ≠ []) :
    Ready s [] = s.jobList.isEmpty
    ∧ Ready s ks = (s.jobList.isEmpty
        && ks.all (fun k => !(mcontains s.pending k || mcontains s.inProgress k)))
    ∧ ReadySpec s ks = Ready s ks := by
  refine ⟨by simp [Ready], ?_, ?_⟩
  · show (s.jobList.isEmpty && ks.all _ && ks.all _) = _
    cases hjl : s.jobList.isEmpty
    · simp
    · simp only [Bool.true_and]
      rw [← all_and_split]
      congr 1
      funext k
      cases mcontains s.pending k <;> cases mcontains s.inProgress k <;> simp
  · cases ks with
    | nil => exact absurd rfl hne
    | cons a l =>
      show (if (a :: l).isEmpty = true then _ else _) = _
      rw [if_neg (by simp)]
      exact rfl

/-- C1 (amended, witness): the amended characterization evaluated at the
concrete reachable state `c1s` and key list `[3]`. -/
theorem C1_ready_amended_wit :
    Ready c1s [] = c1s.jobList.isEmpty
    ∧ Ready c1s [3] = (c1s.jobList.isEmpty
        && [3].all (fun k => !(mcontains c1s.pending k || mcontains c1s.inProgress k)))
    ∧ ReadySpec c1s [3] = Ready c1s [3] :=
  C1_ready_amended c1s [3] (by decide)

/-- C2 (counterexample): the spec says queued-but-undispatched jobs are
abandoned (destroyed without execution) once stop is requested.  In the
code the break condition of the worker is `stop_requested && empty(job_list)`,
so after stop the worker keeps draining: in `c2mid` stop is requested with
job 0 still queued and nothing started, and the continuation to `c2fin`
pops and runs that job (its callable executes, `funcVoid` is logged). -/
theorem C2_stop_drains_cex :
    foldLabels (init Nat Nat 1) [.add 7 okJob, .reqStop] = some c2mid
    ∧ c2mid.stop = true
    ∧ c2mid.jobList.length = 1
    ∧ c2mid.startLog = []
    ∧ foldLabels c2mid [.pop 0, .execute 0] = some c2fin
    ∧ c2fin.startLog = [0]
    ∧ c2fin.evLog = [Event.funcVoid] :=
  ⟨rfl, rfl, rfl, rfl, rfl, rfl, rfl⟩

/-- C2 (amended): after stop is requested, workers do not abandon queued
jobs — they keep dequeuing and executing them.  A worker dispatch loop
terminates only in a state where stop has been requested AND the job store
is empty, and while the store is non-empty a worker at its loop top can
always pop.  (Jobs already in progress still run to completion, which is the
part of the original claim that survives.) -/
theorem C2_stop_drains_amended :
    (∀ (s : QState Key V) (l : Label Key V) (s2 : QState Key V) (w : Nat),
      applyLabel s l = some s2 →
      getW s.workers w ≠ some Phase.done →
      getW s2.workers w = some Phase.done →
      s.stop = true ∧ s.jobList = [])
    ∧ (∀ (s : QState Key V) (w : Nat),
      getW s.workers w = some Phase.atTop →
      s.jobList.isEmpty = false →
      (applyLabel s (Label.pop w)).isSome = true) := by
  constructor
  · intro s l s2 w h hnot hdone
    cases l with
    | add k0 f =>
      simp only [applyLabel, Option.some.injEq] at h
      subst h
      exact absurd hdone hnot
    | addCbU k0 f =>
      simp only [applyLabel, Option.some.injEq] at h
      subst h
      exact absurd hdone hnot
    | addCbV k0 f =>
      simp only [applyLabel, Option.some.injEq] at h
      subst h
      exact absurd hdone hnot
    | cancel ks =>
      simp only [applyLabel, Option.some.injEq] at h
      subst h
      have hw : (Cancel s ks).workers = s.workers := by
        unfold Cancel
        split <;> rfl
      rw [hw] at hdone
      exact absurd hdone hnot
    | reqStop =>
      simp only [applyLabel, Option.some.injEq] at h
      subst h
      exact absurd hdone hnot
    | checkIdle w2 =>
      simp only [applyLabel] at h
      cases hgw : getW s.workers w2 with
      | none => rw [hgw] at h; exact absurd h (by simp)
      | some p =>
        rw [hgw] at h
        cases p with
        | atTop =>
          dsimp only at h
          split at h
          · rw [Option.some.injEq] at h
            subst h
            by_cases hww : w = w2
            · subst hww
              rw [getW_setW_self s.workers w Phase.waiting _ hgw] at hdone
              exact absurd (Option.some.inj hdone) (by intro hc; cases hc)
            · rw [getW_setW_ne s.workers w2 w Phase.waiting hww] at hdone
              exact absurd hdone hnot
          · exact absurd h (by simp)
        | waiting => exact absurd h (by simp)
        | hasJob k0 j id => exact absurd h (by simp)
        | ranJob k0 => exact absurd h (by simp)
        | done => exact absurd h (by simp)
        | crashed => exact absurd h (by simp)
    | wakeWork w2 =>
      simp only [applyLabel] at h
      cases hgw : getW s.workers w2 with
      | none => rw [hgw] at h; exact absurd h (by simp)
      | some p =>
        rw [hgw] at h
        cases p with
        | waiting =>
          dsimp only at h
          split at h
          · exact absurd h (by simp)
          · rw [Option.some.injEq] at h
            subst h
            by_cases hww : w = w2
            · subst hww
              rw [getW_setW_self s.workers w Phase.atTop _ hgw] at hdone
              exact absurd (Option.some.inj hdone) (by intro hc; cases hc)
            · rw [getW_setW_ne s.workers w2 w Phase.atTop hww] at hdone
              exact absurd hdone hnot
        | atTop => exact absurd h (by simp)
        | hasJob k0 j id => exact absurd h (by simp)
        | ranJob k0 => exact absurd h (by simp)
        | done => exact absurd h (by simp)
        | crashed => exact absurd h (by simp)
    | wakeExit w2 =>
      simp only [applyLabel] at h
      cases hgw : getW s.workers w2 with
      | none => rw [hgw] at h; exact absurd h (by simp)
      | some p =>
        rw [hgw] at h
        cases p with
        | waiting =>
          dsimp only at h
          split at h
          · rename_i hguard
            rw [Option.some.injEq] at h
            subst h
            simp only [Bool.and_eq_true] at hguard
            exact ⟨hguard.1, by
              have := hguard.2
              cases hjl : s.jobList
              · rfl
              · rw [hjl] at this; simp at this⟩
          · exact absurd h (by simp)
        | atTop => exact absurd h (by simp)
        | hasJob k0 j id => exact absurd h (by simp)
        | ranJob k0 => exact absurd h (by simp)
        | done => exact absurd h (by simp)
        | crashed => exact absurd h (by simp)
    | pop w2 =>
      simp only [applyLabel] at h
      cases hgw : getW s.workers w2 with
      | none => rw [hgw] at h; exact absurd h (by simp)
      | some p =>
        rw [hgw] at h
        cases p with
        | atTop =>
          cases hjl : s.jobList with
          | nil => rw [hjl] at h; exact absurd h (by simp)
          | cons e rest =>
            obtain ⟨k0, j, id⟩ := e
            rw [hjl] at h
            dsimp only at h
            rw [Option.some.injEq] at h
            subst h
            by_cases hww : w = w2
            · subst hww
              rw [getW_setW_self s.workers w (Phase.hasJob k0 j id) _ hgw] at hdone
              exact absurd (Option.some.inj hdone) (by intro hc; cases hc)
            · rw [getW_setW_ne s.workers w2 w (Phase.hasJob k0 j id) hww] at hdone
              exact absurd hdone hnot
        | waiting => exact absurd h (by simp)
        | hasJob k0 j id => exact absurd h (by simp)
        | ranJob k0 => exact absurd h (by simp)
        | done => exact absurd h (by simp)
        | crashed => exact absurd h (by simp)
    | execute w2 =>
      simp only [applyLabel] at h
      cases hgw : getW s.workers w2 with
      | none => rw [hgw] at h; exact absurd h (by simp)
      | some p =>
        cases p with
        | hasJob k0 j id =>
          rw [hgw] at h
          dsimp only at h
          cases hrj : runJob j with
          | ok evs =>
            rw [hrj] at h
            dsimp only at h
            rw [Option.some.injEq] at h
            subst h
            by_cases hww : w = w2
            · subst hww
              rw [getW_setW_self s.workers w (Phase.ranJob k0) _ hgw] at hdone
              exact absurd (Option.some.inj hdone) (by intro hc; cases hc)
            · rw [getW_setW_ne s.workers w2 w (Phase.ranJob k0) hww] at hdone
              exact absurd hdone hnot
          | error e =>
            rw [hrj] at h
            dsimp only at h
            rw [Option.some.injEq] at h
            subst h
            by_cases hww : w = w2
            · subst hww
              rw [getW_setW_self s.workers w Phase.crashed _ hgw] at hdone
              exact absurd (Option.some.inj hdone) (by intro hc; cases hc)
            · rw [getW_setW_ne s.workers w2 w Phase.crashed hww] at hdone
              exact absurd hdone hnot
        | atTop => rw [hgw] at h; exact absurd h (by simp)
        | waiting => rw [hgw] at h; exact absurd h (by simp)
        | ranJob k0 => rw [hgw] at h; exact absurd h (by simp)
        | done => rw [hgw] at h; exact absurd h (by simp)
        | crashed => rw [hgw] at h; exact absurd h (by simp)
    | finish w2 =>
      simp only [applyLabel] at h
      cases hgw : getW s.workers w2 with
      | none => rw [hgw] at h; exact absurd h (by simp)
      | some p =>
        rw [hgw] at h
        cases p with
        | ranJob k0 =>
          dsimp only at h
          rw [Option.some.injEq] at h
          subst h
          by_cases hww : w = w2
          · subst hww
            rw [getW_setW_self s.workers w Phase.atTop _ hgw] at hdone
            exact absurd (Option.some.inj hdone) (by intro hc; cases hc)
          · rw [getW_setW_ne s.workers w2 w Phase.atTop hww] at hdone
            exact absurd hdone hnot
        | atTop => exact absurd h (by simp)
        | waiting => exact absurd h (by simp)
        | hasJob k0 j id => exact absurd h (by simp)
        | done => exact absurd h (by simp)
        | crashed => exact absurd h (by simp)
  · intro s w hw hne
    cases hjl : s.jobList with
    | nil => rw [hjl] at hne; simp at hne
    | cons e rest =>
      obtain ⟨k0, j, id⟩ := e
      simp only [applyLabel]
      rw [hw, hjl]
      rfl

/-- C2 (amended, witness): the exit characterization applied at the
concrete state `c2wait` (worker parked, stop requested, store empty) and
the pop-enabledness applied at `c2mid` (stop requested, job still queued). -/
theorem C2_stop_drains_amended_wit :
    (c2wait.stop = true ∧ c2wait.jobList = [])
    ∧ (applyLabel c2mid (Label.pop 0)).isSome = true :=
  ⟨C2_stop_drains_amended.1 c2wait (Label.wakeExit 0) c2waitDone 0 rfl
      (fun h => by exact absurd (Option.some.inj h) (by intro hc; cases hc)) rfl,
   C2_stop_drains_amended.2 c2mid 0 rfl rfl⟩

/-- C3: the `NoKey` `Join` waits on `number_of_busy_threads == 0` only.  In
the reachable state `c3s` — the single worker went idle (busy count 0) and
a caller then pushed one job — the wait predicate is already true, so a
`Join()` call returns immediately even though the job is still queued and
was never executed.  This contradicts the claim that `Join` returns only
with every job drained; the `Join` of the keyed version correctly also checks
store emptiness, so the busy-counter predicate of the specialization is the
slip. -/
theorem C3_nokey_join_returns_early :
    nkFold (nkInit Nat 1) [.checkIdle 0, .add okJob] = some c3s
    ∧ NKJoinPred c3s = true
    ∧ c3s.jobQueue.length = 1
    ∧ c3s.startLog = []
    ∧ c3s.evLog = [] :=
  ⟨rfl, rfl, rfl, rfl, rfl⟩

/-- C4: the missed wakeup the claim rules out does happen.  With one worker
parked: `Add(5)` queues a job (a `Join(5)` caller checking now blocks —
`Ready(5)` is false); then `Cancel(5)` removes the last job of key 5 while
none is in progress.  `Ready(5)` is now true, but `Cancel` performs no
`join_condition_variable.notify_all()` (`stepSignalsJoin` is false), and in
the resulting state no worker step is enabled at all (the worker stays
parked: stop is not requested and the store is empty), so no later step can
signal the condition variable.  Absent further caller activity or a
spurious wakeup — which the platform never guarantees — the blocked `Join(5)`
is never re-run: it stays blocked forever with its predicate true. -/
theorem C4_cancel_missed_wakeup :
    foldLabels (init Nat Nat 1) [.checkIdle 0, .add 5 okJob] = some c4block
    ∧ Ready c4block [5] = false
    ∧ applyLabel c4block (.cancel [5]) = some c4stuck
    ∧ stepSignalsJoin c4block (.cancel [5]) = false
    ∧ Ready c4stuck [5] = true
    ∧ anyWorkerStep c4stuck = false :=
  ⟨rfl, rfl, rfl, rfl, rfl, rfl⟩

/-- Two workers; two jobs submitted (ids 0 then 1); worker 0 pops job 0,
worker 1 pops job 1, and the `job.get()` of worker 1 runs before that of worker 0. -/
def c5s : QState Nat Nat :=
  (foldLabels (init Nat Nat 2)
    [.add 1 okJob, .add 2 okJob, .pop 0, .pop 1, .execute 1, .execute 0]).getD
    (init Nat Nat 2)

/-- One worker; submit then pop, for the FIFO witness. -/
def c5w : QState Nat Nat :=
  (foldLabels (init Nat Nat 1) [.add 4 okJob, .pop 0]).getD (init Nat Nat 1)

/-- C5 (counterexample): with two workers, jobs are dequeued in submission
order (`popLog = [0, 1] = subLog`), but `job.get()` runs outside the lock,
so the order in which jobs *begin executing* can invert: in the reachable
state `c5s` the execution-begin order is `[1, 0]`.  The claimed "order in
which jobs begin execution equals the global submission order" therefore
fails for pools with more than one worker. -/
theorem C5_start_order_cex :
    foldLabels (init Nat Nat 2)
      [.add 1 okJob, .add 2 okJob, .pop 0, .pop 1, .execute 1, .execute 0] = some c5s
    ∧ c5s.subLog = [0, 1]
    ∧ c5s.popLog = [0, 1]
    ∧ c5s.startLog = [1, 0] :=
  ⟨rfl, rfl, rfl, rfl⟩

/-- C5 (amended): workers always take the head of the single shared
`job_list`, so in every cancel-free execution the global *dequeue* order
equals the global submission order across all keys: the dequeue log
followed by the ids still queued is exactly the submission log (hence the
dequeue log is always an initial segment of the submission log).  With a
single worker this is also the execution-begin order; with several workers
the unlocked `job.get()` calls may begin out of order. -/
theorem C5_fifo_amended (n : Nat) (tr : List (Label Key V)) (s : QState Key V)
    (h : foldLabels (init Key V n) tr = some s) (hnc : noCancel tr = true) :
    s.popLog ++ jobIds s = s.subLog :=
  fifo_reachable n tr s h hnc

/-- C5 (amended, witness): the FIFO equation on a concrete cancel-free
execution. -/
theorem C5_fifo_amended_wit : c5w.popLog ++ jobIds c5w = c5w.subLog :=
  C5_fifo_amended 1 [.add 4 okJob, .pop 0] c5w rfl rfl

/-- One worker; submit a job of key 2 and pop it, for the C6 witness. -/
def c6s : QState Nat Nat :=
  (foldLabels (init Nat Nat 1) [.add 2 okJob, .pop 0]).getD (init Nat Nat 1)

/-- C6: in every state reachable by any interleaving of submissions,
cancels and worker dequeue/execute/complete steps — as long as no job has
thrown (a thrown exception terminates the whole process, see C9) — a key is
in `pending_job_count_map` iff the number of queued jobs of that key is
positive, and in `in_progress_job_count_map` iff the number of workers
currently holding or running a job of that key is positive. -/
theorem C6_sparse_maps (n : Nat) (tr : List (Label Key V)) (s : QState Key V) (k : Key)
    (h : foldLabels (init Key V n) tr = some s) (ht : s.terminated = false) :
    (mcontains s.pending k = true ↔ 0 < pcount s k)
    ∧ (mcontains s.inProgress k = true ↔ 0 < xcount s k) := by
  have hG := goodMaps_reachable n tr s h ht
  constructor
  · unfold mcontains
    rw [hG.1 k]
    split
    · rename_i hc
      simp [hc]
    · rename_i hc
      simp
      omega
  · unfold mcontains
    rw [hG.2 k]
    split
    · rename_i hc
      simp [hc]
    · rename_i hc
      simp
      omega

/-- C6 (witness): the sparse-map equivalences at key 2 in the concrete
state `c6s` (job of key 2 popped and held by the worker). -/
theorem C6_sparse_maps_wit :
    (mcontains c6s.pending 2 = true ↔ 0 < pcount c6s 2)
    ∧ (mcontains c6s.inProgress 2 = true ↔ 0 < xcount c6s 2) :=
  C6_sparse_maps 1 [.add 2 okJob, .pop 0] c6s 2 rfl rfl

/-- Two queued jobs of keys 1 and 2, for the C7 witness. -/
def c7s : QState Nat Nat :=
  (foldLabels (init Nat Nat 1) [.add 1 okJob, .add 2 okJob]).getD (init Nat Nat 1)

/-- C7: `Cancel(keys...)` with a non-empty key list removes exactly the
job-store entries of the given keys (for a cancelled key `k1` nothing of
`k1` remains; for any other key `k2` the sequence of its entries is
unchanged, and the surviving store is a subsequence of the old one), erases
exactly the given keys from the pending map (pending entries of other keys
are untouched), and leaves the in-progress map entirely unchanged. -/
theorem C7_cancel_frame (s : QState Key V) (ks : List Key) (k1 k2 : Key)
    (hne : ks ≠ []) (h1 : k1 ∈ ks) (h2 : k2 ∉ ks) :
    (Cancel s ks).inProgress = s.inProgress
    ∧ mcontains (Cancel s ks).pending k1 = false
    ∧ pcount (Cancel s ks) k1 = 0
    ∧ mlookup (Cancel s ks).pending k2 = mlookup s.pending k2
    ∧ (Cancel s ks).jobList.filter (fun e => decide (e.1 = k2))
        = s.jobList.filter (fun e => decide (e.1 = k2))
    ∧ List.Sublist (Cancel s ks).jobList s.jobList := by
  have hkse : ks.isEmpty = false := by
    cases ks
    · exact absurd rfl hne
    · rfl
  unfold Cancel
  rw [if_neg (by simp [hkse])]
  refine ⟨rfl, ?_, ?_, ?_, ?_, ?_⟩
  · show (mlookup (ks.foldl merase s.pending) k1).isSome = false
    rw [mlookup_eraseList, if_pos h1]
    rfl
  · exact countP_filter_out s.jobList ks k1 h1
  · show mlookup (ks.foldl merase s.pending) k2 = mlookup s.pending k2
    rw [mlookup_eraseList, if_neg h2]
  · show (s.jobList.filter _).filter _ = s.jobList.filter _
    rw [List.filter_filter]
    refine List.filter_congr ?_
    intro e he
    cases hek : decide (e.1 = k2) with
    | false => simp [hek]
    | true =>
      simp only [decide_eq_true_eq] at hek
      have hany : ks.any (fun k3 => decide (e.1 = k3)) = false := by
        rw [List.any_eq_false]
        intro k3 hk3 hd
        rw [decide_eq_true_eq] at hd
        exact h2 ((hd.symm.trans hek) ▸ hk3)
      rw [hany]
      simp only [Bool.not_false, Bool.and_true]
  · exact List.filter_sublist s.jobList

/-- C7 (witness): the cancel frame conditions for `Cancel` of key 1 on the
concrete state `c7s` holding one job each of keys 1 and 2. -/
theorem C7_cancel_frame_wit :
    (Cancel c7s [1]).inProgress = c7s.inProgress
    ∧ mcontains (Cancel c7s [1]).pending 1 = false
    ∧ pcount (Cancel c7s [1]) 1 = 0
    ∧ mlookup (Cancel c7s [1]).pending 2 = mlookup c7s.pending 2
    ∧ (Cancel c7s [1]).jobList.filter (fun e => decide (e.1 = 2))
        = c7s.jobList.filter (fun e => decide (e.1 = 2))
    ∧ List.Sublist (Cancel c7s [1]).jobList c7s.jobList :=
  C7_cancel_frame c7s [1] 1 2 (by decide) (by decide) (by decide)

/-- C8: executing the job built by the value branch of `AddWithCallback`
(`JobKind.cbVal f`, i.e. `invoke(callback, invoke(func, args...))`) invokes
the callable exactly once and then the callback exactly once with exactly
the return value of the callable, both inside the single execution step: the
event log grows by precisely `[funcRet v, cbCall v]` while both accounting
maps are untouched, and only the subsequent accounting step of the worker
decrements (and possibly erases) `in_progress_job_count_map[key]`, adding
no further events. -/
theorem C8_callback_order (s : QState Key V) (w : Nat) (k : Key)
    (f : Unit → Except Unit V) (id : Nat) (v : V) (s2 s3 : QState Key V)
    (hw : getW s.workers w = some (Phase.hasJob k (JobKind.cbVal f) id))
    (hf : f () = Except.ok v)
    (hex : applyLabel s (Label.execute w) = some s2)
    (hfin : applyLabel s2 (Label.finish w) = some s3) :
    runJob (JobKind.cbVal f) = Except.ok [Event.funcRet v, Event.cbCall v]
    ∧ s2.evLog = s.evLog ++ [Event.funcRet v, Event.cbCall v]
    ∧ s2.inProgress = s.inProgress
    ∧ s2.pending = s.pending
    ∧ getW s2.workers w = some (Phase.ranJob k)
    ∧ s3.evLog = s2.evLog
    ∧ mlookup s3.inProgress k
        = (if mget s2.inProgress k - 1 = 0 then none
           else some (mget s2.inProgress k - 1)) := by
  have hrj : runJob (JobKind.cbVal f) = Except.ok [Event.funcRet v, Event.cbCall v] := by
    simp [runJob, hf]
  simp only [applyLabel] at hex
  rw [hw] at hex
  dsimp only at hex
  rw [hrj] at hex
  dsimp only at hex
  rw [Option.some.injEq] at hex
  subst hex
  have hgw2 : getW (setW s.workers w (Phase.ranJob k)) w = some (Phase.ranJob k) :=
    getW_setW_self s.workers w (Phase.ranJob k) _ hw
  simp only [applyLabel] at hfin
  rw [hgw2] at hfin
  dsimp only at hfin
  rw [Option.some.injEq] at hfin
  subst hfin
  refine ⟨hrj, rfl, rfl, rfl, hgw2, rfl, ?_⟩
  dsimp only
  split
  · rw [mlookup_merase, if_pos rfl]
  · rw [mlookup_minsert, if_pos rfl]

/-- One worker; the non-void `AddWithCallback` job of key 3 with callable
returning 42 is submitted and popped. -/
def c8s : QState Nat Nat :=
  (foldLabels (init Nat Nat 1) [.addCbV 3 (fun _ => Except.ok 42), .pop 0]).getD
    (init Nat Nat 1)

/-- Successor of `c8s` by the execution step of the worker. -/
def c8s2 : QState Nat Nat := (applyLabel c8s (.execute 0)).getD c8s

/-- Successor of `c8s2` by the accounting step of the worker. -/
def c8s3 : QState Nat Nat := (applyLabel c8s2 (.finish 0)).getD c8s2

/-- C8 (witness): the callback ordering facts on the concrete execution of
an `AddWithCallback(3, cb, fun => 42)` job. -/
theorem C8_callback_order_wit :
    runJob (JobKind.cbVal (fun _ => Except.ok 42)) = Except.ok [Event.funcRet 42, Event.cbCall 42]
    ∧ c8s2.evLog = c8s.evLog ++ [Event.funcRet 42, Event.cbCall 42]
    ∧ c8s2.inProgress = c8s.inProgress
    ∧ c8s2.pending = c8s.pending
    ∧ getW c8s2.workers 0 = some (Phase.ranJob 3)
    ∧ c8s3.evLog = c8s2.evLog
    ∧ mlookup c8s3.inProgress 3
        = (if mget c8s2.inProgress 3 - 1 = 0 then none
           else some (mget c8s2.inProgress 3 - 1)) :=
  C8_callback_order c8s 0 3 (fun _ => Except.ok 42) 0 42 c8s2 c8s3 rfl rfl rfl rfl

/-- One worker runs a job of key 9 whose callable throws. -/
def c9s : QState Nat Nat :=
  (foldLabels (init Nat Nat 1) [.add 9 badJob, .pop 0, .execute 0]).getD (init Nat Nat 1)

/-- C9: a throwing callable does crash the pool.  The worker calls
`job.get()` on the deferred future; `get()` rethrows the stored exception
in the worker thread, outside any handler, so it escapes
`JobDispatcherThread` and `std::terminate` ends the whole process.  In the
concrete execution `c9s`: the process is terminated, the post-execution
accounting never ran (key 9 is still in `in_progress_job_count_map` and the
accounting step of the worker is not even enabled), and the failure was not
local to the job.  This contradicts the claim that the worker survives and
completes its normal accounting — the claim matches the stated
error-handling intent, the code has no handler. -/
theorem C9_throwing_job_kills_pool :
    foldLabels (init Nat Nat 1) [.add 9 badJob, .pop 0, .execute 0] = some c9s
    ∧ c9s.terminated = true
    ∧ mcontains c9s.inProgress 9 = true
    ∧ applyLabel c9s (.finish 0) = none
    ∧ c9s.evLog = [] :=
  ⟨rfl, rfl, rfl, rfl, rfl⟩

/-- A zero-worker queue with one queued job of key 1, for the C10 witness. -/
def c10base : QState Nat Nat := Add (init Nat Nat 0) 1 okJob

/-- Submissions and a cancel on the zero-worker pool. -/
def c10a : QState Nat Nat :=
  (foldLabels (init Nat Nat 0) [.add 1 okJob, .cancel []]).getD (init Nat Nat 0)

/-- Further submissions and a stop request on top of `c10base`. -/
def c10b : QState Nat Nat :=
  (foldLabels c10base [.add 2 okJob, .reqStop]).getD c10base

/-- C10: the constructor applies no validation to `number_of_threads`, so
`init 0` (zero workers — also what the default argument produces when
`std::thread::hardware_concurrency()` returns 0, which the standard allows)
is a legal instance.  On it: (1) in every reachable state no job has ever
begun executing and no job effect has ever been observed, whatever the
callers do; (2) once the store is non-empty, any further activity that
contains no `Cancel` keeps it non-empty, and the quiescence predicate
`Ready(keys...)` that a keyed `Join` waits on is false for every key list —
such a `Join` can never be satisfied. -/
theorem C10_zero_workers :
    (∀ (tr : List (Label Key V)) (s : QState Key V),
      foldLabels (init Key V 0) tr = some s →
      s.startLog = [] ∧ s.evLog = [])
    ∧ (∀ (s : QState Key V) (tr : List (Label Key V)) (s2 : QState Key V) (ks : List Key),
      s.workers = [] →
      s.jobList.isEmpty = false →
      noCancel tr = true →
      foldLabels s tr = some s2 →
      s2.jobList.isEmpty = false ∧ Ready s2 ks = false) := by
  have hnone : ∀ (s : QState Key V) (l : Label Key V) (s2 : QState Key V),
      s.workers = [] → applyLabel s l = some s2 →
      s2.workers = [] ∧ s2.startLog = s.startLog ∧ s2.evLog = s.evLog
      ∧ (s2.jobList.isEmpty = true → (match l with | Label.cancel _ => false | _ => true) = true
          → s.jobList.isEmpty = true) := by
    intro s l s2 hw h
    have hg : ∀ w2 : Nat, getW s.workers w2 = none := by
      intro w2
      rw [hw]
      cases w2 <;> rfl
    cases l with
    | add k0 f =>
      simp only [applyLabel, Option.some.injEq] at h
      subst h
      refine ⟨hw, rfl, rfl, ?_⟩
      intro hemp _
      simp [Add, enqueue] at hemp
    | addCbU k0 f =>
      simp only [applyLabel, Option.some.injEq] at h
      subst h
      refine ⟨hw, rfl, rfl, ?_⟩
      intro hemp _
      simp [AddWithCallbackUnit, enqueue] at hemp
    | addCbV k0 f =>
      simp only [applyLabel, Option.some.injEq] at h
      subst h
      refine ⟨hw, rfl, rfl, ?_⟩
      intro hemp _
      simp [AddWithCallbackVal, enqueue] at hemp
    | cancel ks =>
      simp only [applyLabel, Option.some.injEq] at h
      subst h
      have h1 : (Cancel s ks).workers = s.workers := by
        unfold Cancel
        split <;> rfl
      have h2 : (Cancel s ks).startLog = s.startLog := by
        unfold Cancel
        split <;> rfl
      have h3 : (Cancel s ks).evLog = s.evLog := by
        unfold Cancel
        split <;> rfl
      exact ⟨h1.trans hw, h2, h3, fun _ hq => absurd hq (by simp)⟩
    | reqStop =>
      simp only [applyLabel, Option.some.injEq] at h
      subst h
      exact ⟨hw, rfl, rfl, fun hemp _ => hemp⟩
    | checkIdle w2 =>
      simp only [applyLabel] at h
      rw [hg w2] at h
      exact absurd h (by simp)
    | wakeWork w2 =>
      simp only [applyLabel] at h
      rw [hg w2] at h
      exact absurd h (by simp)
    | wakeExit w2 =>
      simp only [applyLabel] at h
      rw [hg w2] at h
      exact absurd h (by simp)
    | pop w2 =>
      simp only [applyLabel] at h
      rw [hg w2] at h
      exact absurd h (by simp)
    | execute w2 =>
      simp only [applyLabel] at h
      rw [hg w2] at h
      exact absurd h (by simp)
    | finish w2 =>
      simp only [applyLabel] at h
      rw [hg w2] at h
      exact absurd h (by simp)
  constructor
  · intro tr s h
    have := foldLabels_inv
      (fun st => st.workers = [] ∧ st.startLog = [] ∧ st.evLog = [])
      (fun s1 l s2 hP hstep => by
        obtain ⟨h1, h2, h3, _⟩ := hnone s1 l s2 hP.1 hstep
        exact ⟨h1, h2.trans hP.2.1, h3.trans hP.2.2⟩)
      tr (init Key V 0) s ⟨rfl, rfl, rfl⟩ h
    exact ⟨this.2.1, this.2.2⟩
  · intro s tr s2 ks hw hne hnc h
    have hnc2 : (tr.all fun l => match l with | Label.cancel _ => false | _ => true) = true := hnc
    have hmain := foldLabels_inv_cond
      (fun st => st.workers = [] ∧ st.jobList.isEmpty = false)
      (fun l => match l with | Label.cancel _ => false | _ => true)
      (fun s1 l s3 hq hP hstep => by
        obtain ⟨h1, _, _, h4⟩ := hnone s1 l s3 hP.1 hstep
        refine ⟨h1, ?_⟩
        cases hemp : s3.jobList.isEmpty
        · rfl
        · exact absurd (h4 hemp hq) (by simp [hP.2]))
      tr s s2 hnc2 ⟨hw, hne⟩ h
    refine ⟨hmain.2, ?_⟩
    unfold Ready
    rw [hmain.2]
    rfl

/-- C10 (witness): no-execution on a concrete zero-worker trace with a
cancel, and the never-satisfiable `Join(1)` predicate on a concrete
cancel-free continuation of a non-empty zero-worker queue. -/
theorem C10_zero_workers_wit :
    (c10a.startLog = [] ∧ c10a.evLog = [])
    ∧ (c10b.jobList.isEmpty = false ∧ Ready c10b [1] = false) :=
  ⟨C10_zero_workers.1 [.add 1 okJob, .cancel []] c10a rfl,
   C10_zero_workers.2 c10base [.add 2 okJob, .reqStop] c10b [1] rfl rfl rfl rfl⟩

end AsyncJobQueueModel
